import Mathlib

/-!
Verification of the hexlit hex-literal decoder (src/lib.rs).

The source is a Rust crate whose core is four const functions:
`is_valid_delimiter`, `count_skipped`, `to_ordinal` and `convert`,
composed by the `hex!` macro pipeline.  We embed them shallowly:
bytes are naturals, slices are lists of naturals, the compile-time
failures (the Even trait check, the forced invalid constant index in
`to_ordinal`, and slice-index panics) become an `Except HexError`
result, and the two `while` loops of `convert` are fuel-indexed
structural recursions whose fuel is proved sufficient.
-/

namespace Hexlit

/-- The fixed delimiter set of the source:
space, double-quote, underscore, vertical bar, hyphen. -/
def DELIMITERS : List Nat := [32, 34, 95, 124, 45]

/-- Embedding of `is_valid_delimiter`: the source loops `index` over
`DELIMITERS`, or-ing `c == DELIMITERS[index]` into `result`. -/
def is_valid_delimiter (c : Nat) : Bool :=
  DELIMITERS.foldl (fun result d => result || decide (c = d)) false

/-- Embedding of `count_skipped`: one pass over the input, counting
the bytes classified as delimiters. -/
def count_skipped (data : List Nat) : Nat :=
  data.foldl (fun char_count c =>
    if is_valid_delimiter c then char_count + 1 else char_count) 0

/-- The failure modes of the pipeline: the type-level even-length check,
the forced failure in `to_ordinal`, and a slice-index panic. -/
inductive HexError where
  | OddDigitCount
  | InvalidDigit
  | OutOfBounds
deriving DecidableEq, Repr

/-- Embedding of `to_ordinal`: the match on the three digit ranges; the
catch-all arm, which in the source forces a compile failure through an
out-of-range constant index, becomes the `InvalidDigit` error. -/
def to_ordinal (input : Nat) : Except HexError Nat :=
  if 48 ≤ input ∧ input ≤ 57 then .ok (input - 48)
  else if 65 ≤ input ∧ input ≤ 70 then .ok (input - 65 + 10)
  else if 97 ≤ input ∧ input ≤ 102 then .ok (input - 97 + 10)
  else .error .InvalidDigit

/-- Embedding of the inner `while` of `convert`:
`while next_index < STRING_SIZE && is_valid_delimiter(input[next_index])`.
Fuel-indexed; `none` means the fuel ran out, `some (.error _)` an
out-of-bounds read of `input`, `some (.ok j)` the final cursor value. -/
def find_next_fuel : Nat → Nat → List Nat → Nat → Option (Except HexError Nat)
  | 0, _, _, _ => none
  | fuel + 1, STRING_SIZE, input, next_index =>
    if next_index < STRING_SIZE then
      match input[next_index]? with
      | none => some (.error .OutOfBounds)
      | some c =>
        if is_valid_delimiter c then
          find_next_fuel fuel STRING_SIZE input (next_index + 1)
        else some (.ok next_index)
    else some (.ok next_index)

/-- Embedding of the outer loop of `convert`.  The guard is the one in
the code: `data_index < STRING_SIZE && char_index + 1 < STRING_SIZE`.
Reads of `input` and the write `data[data_index] = ...` are modelled
totally: an index out of range is the `OutOfBounds` panic. -/
def convert_loop_fuel :
    Nat → Nat → Nat → List Nat → List Nat → Nat → Nat →
    Option (Except HexError (List Nat))
  | 0, _, _, _, _, _, _ => none
  | fuel + 1, RESULT_SIZE, STRING_SIZE, input, data, data_index, char_index =>
    if data_index < STRING_SIZE ∧ char_index + 1 < STRING_SIZE then
      match input[char_index]? with
      | none => some (.error .OutOfBounds)
      | some c =>
        if is_valid_delimiter c then
          convert_loop_fuel fuel RESULT_SIZE STRING_SIZE input
            data data_index (char_index + 1)
        else
          match find_next_fuel (STRING_SIZE + 1) STRING_SIZE input (char_index + 1) with
          | none => some (.error .OutOfBounds)
          | some (.error e) => some (.error e)
          | some (.ok next_index) =>
            match input[next_index]? with
            | none => some (.error .OutOfBounds)
            | some c2 =>
              match to_ordinal c, to_ordinal c2 with
              | .ok hi, .ok lo =>
                if data_index < data.length then
                  convert_loop_fuel fuel RESULT_SIZE STRING_SIZE input
                    (data.set data_index (hi * 16 + lo)) (data_index + 1) (next_index + 1)
                else some (.error .OutOfBounds)
              | .error e, _ => some (.error e)
              | .ok _, .error e => some (.error e)
    else some (.ok data)

/-- Embedding of `convert`: the output array starts as `[0; RESULT_SIZE]`
and the loop runs from both cursors at 0.  The outer loop advances
`char_index` by at least one per iteration, so `STRING_SIZE + 1` units of
fuel always suffice (proved below); the fallback is dead code. -/
def convert (RESULT_SIZE STRING_SIZE : Nat) (input : List Nat) :
    Except HexError (List Nat) :=
  (convert_loop_fuel (STRING_SIZE + 1) RESULT_SIZE STRING_SIZE input
    (List.replicate RESULT_SIZE 0) 0 0).getD (.error .OutOfBounds)

/-- Embedding of the `hex!` macro pipeline on an already-flattened byte
string: `SKIP_LENGTH = count_skipped(DATA)`, the type-level
`require_even_number_digits!(len - SKIP_LENGTH)` check (its failure is
`OddDigitCount`), `ARRAY_LENGTH = (len - SKIP_LENGTH) / 2`, then
`convert::<ARRAY_LENGTH, len>(DATA)`. -/
def hex (arg : List Nat) : Except HexError (List Nat) :=
  if (arg.length - count_skipped arg) % 2 = 0 then
    convert ((arg.length - count_skipped arg) / 2) arg.length arg
  else .error .OddDigitCount

/-- The significant bytes of an input: those that are not delimiters,
in scan order. -/
def sig (input : List Nat) : List Nat :=
  input.filter (fun c => !is_valid_delimiter c)

/-- A byte is a hex digit when it lies in one of the three source ranges. -/
def isHexDigit (c : Nat) : Bool :=
  (decide (48 ≤ c) && decide (c ≤ 57)) ||
  (decide (65 ≤ c) && decide (c ≤ 70)) ||
  (decide (97 ≤ c) && decide (c ≤ 102))

/-- The value function of the spec: maps a hex digit to 0..15
(0 on non-digits, where it is never used). -/
def digitVal (c : Nat) : Nat :=
  if 48 ≤ c ∧ c ≤ 57 then c - 48
  else if 65 ≤ c ∧ c ≤ 70 then c - 65 + 10
  else if 97 ≤ c ∧ c ≤ 102 then c - 97 + 10
  else 0

/-- Reference pairing of a delimiter-free digit list:
byte i is 16 * value(digit 2i) + value(digit (2i+1)). -/
def pairsOf : List Nat → List Nat
  | a :: b :: rest => (16 * digitVal a + digitVal b) :: pairsOf rest
  | _ => []

/-- Error-aware reference pairing: decode consecutive digit pairs with
`to_ordinal`, propagating the first failure.  On an odd-length list the
lone trailing digit corresponds to the out-of-bounds read the loop would
perform looking for its partner. -/
def decodePairsE : List Nat → Except HexError (List Nat)
  | [] => .ok []
  | [_] => .error .OutOfBounds
  | a :: b :: rest =>
    match to_ordinal a with
    | .error e => .error e
    | .ok hi =>
      match to_ordinal b with
      | .error e => .error e
      | .ok lo =>
        match decodePairsE rest with
        | .error e => .error e
        | .ok out => .ok ((16 * hi + lo) :: out)

/-- Modelled from the spec: the Array Builder of spec section 4.4.  It
differs from the code of `convert` only in the loop guard: it loops
while the write cursor has not yet filled the output
(`write_cursor < RESULT_SIZE`) and the read cursor has not exhausted the
input (`read_cursor < STRING_SIZE`); steps a-c and the inner
delimiter-skipping cursor are as in the code. -/
def spec_loop_fuel :
    Nat → Nat → Nat → List Nat → List Nat → Nat → Nat →
    Option (Except HexError (List Nat))
  | 0, _, _, _, _, _, _ => none
  | fuel + 1, RESULT_SIZE, STRING_SIZE, input, data, write_cursor, read_cursor =>
    if write_cursor < RESULT_SIZE ∧ read_cursor < STRING_SIZE then
      match input[read_cursor]? with
      | none => some (.error .OutOfBounds)
      | some c =>
        if is_valid_delimiter c then
          spec_loop_fuel fuel RESULT_SIZE STRING_SIZE input data
            write_cursor (read_cursor + 1)
        else
          match find_next_fuel (STRING_SIZE + 1) STRING_SIZE input (read_cursor + 1) with
          | none => some (.error .OutOfBounds)
          | some (.error e) => some (.error e)
          | some (.ok low_index) =>
            match input[low_index]? with
            | none => some (.error .OutOfBounds)
            | some c2 =>
              match to_ordinal c, to_ordinal c2 with
              | .ok hi, .ok lo =>
                spec_loop_fuel fuel RESULT_SIZE STRING_SIZE input
                  (data.set write_cursor (16 * hi + lo)) (write_cursor + 1)
                  (low_index + 1)
              | .error e, _ => some (.error e)
              | .ok _, .error e => some (.error e)
    else some (.ok data)

/-- Modelled from the spec: decode of spec section 4.4 run from both
cursors at 0 on a fresh output of the given length. -/
def spec_decode (RESULT_SIZE STRING_SIZE : Nat) (input : List Nat) :
    Except HexError (List Nat) :=
  (spec_loop_fuel (STRING_SIZE + 1) RESULT_SIZE STRING_SIZE input
    (List.replicate RESULT_SIZE 0) 0 0).getD (.error .OutOfBounds)

/-- One byte is the uppercased form of another: either unchanged, or a
lowercase hex letter replaced by the corresponding uppercase letter. -/
def upcaseRel (a b : Nat) : Prop :=
  b = a ∨ (97 ≤ a ∧ a ≤ 102 ∧ b = a - 32)

/-- Unfolding of the delimiter classifier into the five membership tests. -/
theorem is_valid_delimiter_iff (c : Nat) :
    is_valid_delimiter c = true ↔
      c = 32 ∨ c = 34 ∨ c = 95 ∨ c = 124 ∨ c = 45 := by
  simp [is_valid_delimiter, DELIMITERS, List.foldl]
  tauto

theorem count_skipped_go (l : List Nat) : ∀ n : Nat,
    l.foldl (fun char_count c =>
      if is_valid_delimiter c then char_count + 1 else char_count) n
      = n + (l.filter (fun c => is_valid_delimiter c)).length := by
  induction l with
  | nil => intro n; simp
  | cons a t ih =>
    intro n
    by_cases h : is_valid_delimiter a = true
    · simp [List.foldl_cons, List.filter_cons, h, ih]; omega
    · simp [List.foldl_cons, List.filter_cons, h, ih]

/-- The skip count is the number of delimiter bytes. -/
theorem count_skipped_eq (data : List Nat) :
    count_skipped data = (data.filter (fun c => is_valid_delimiter c)).length := by
  simpa [count_skipped] using count_skipped_go data 0

theorem filter_length_split (l : List Nat) :
    (l.filter (fun c => is_valid_delimiter c)).length + (sig l).length = l.length := by
  induction l with
  | nil => simp [sig]
  | cons a t ih =>
    by_cases h : is_valid_delimiter a = true <;>
      simp [sig, List.filter_cons, h] at ih ⊢ <;> omega

theorem count_skipped_le (data : List Nat) : count_skipped data ≤ data.length := by
  rw [count_skipped_eq]
  exact List.length_filter_le _ _

/-- The numerator of the output-length division is the significant count. -/
theorem length_sub_count_skipped (data : List Nat) :
    data.length - count_skipped data = (sig data).length := by
  have h := filter_length_split data
  rw [count_skipped_eq]
  omega

theorem sig_cons (c : Nat) (t : List Nat) :
    sig (c :: t) = if is_valid_delimiter c then sig t else c :: sig t := by
  by_cases h : is_valid_delimiter c = true <;> simp [sig, List.filter_cons, h]

theorem sig_length_le (l : List Nat) : (sig l).length ≤ l.length :=
  List.length_filter_le _ _

/-- On a hex digit, `to_ordinal` returns the value function of the spec. -/
theorem to_ordinal_ok_of_hex (c : Nat) (h : isHexDigit c = true) :
    to_ordinal c = .ok (digitVal c) := by
  simp [isHexDigit] at h
  unfold to_ordinal digitVal
  rcases h with (⟨h1, h2⟩ | ⟨h1, h2⟩) | ⟨h1, h2⟩ <;> split_ifs <;>
    first | rfl | (exfalso; omega)

/-- On a non-digit, `to_ordinal` reaches its failure arm. -/
theorem to_ordinal_err_of_not_hex (c : Nat) (h : isHexDigit c = false) :
    to_ordinal c = .error .InvalidDigit := by
  simp [isHexDigit] at h
  unfold to_ordinal
  split_ifs <;> first | rfl | (exfalso; omega)

theorem digitVal_le (c : Nat) : digitVal c ≤ 15 := by
  unfold digitVal
  split_ifs <;> omega

theorem take_set (l : List Nat) : ∀ i v, i < l.length →
    (l.set i v).take (i + 1) = l.take i ++ [v] := by
  induction l with
  | nil => intro i v h; simp at h
  | cons a t ih =>
    intro i v h
    cases i with
    | zero => simp
    | succ j =>
      simp only [List.set_cons_succ, List.take_succ_cons, List.cons_append]
      rw [ih j v (by simpa using h)]

/-- The inner loop halts within its bound: with more fuel than
remaining positions, it always returns. -/
theorem find_next_fuel_isSome (S : Nat) (input : List Nat) :
    ∀ fuel i, S - i < fuel → (find_next_fuel fuel S input i).isSome = true := by
  intro fuel
  induction fuel with
  | zero => intro i h; omega
  | succ f ih =>
    intro i h
    unfold find_next_fuel
    split
    · rcases hc : input[i]? with _ | c
      · simp
      · by_cases hd : is_valid_delimiter c = true
        · simpa [hd] using ih (i + 1) (by omega)
        · simp [hd]
    · simp

/-- The inner cursor never moves backwards. -/
theorem find_next_fuel_le (S : Nat) (input : List Nat) :
    ∀ fuel i j, find_next_fuel fuel S input i = some (.ok j) → i ≤ j := by
  intro fuel
  induction fuel with
  | zero => intro i j h; simp [find_next_fuel] at h
  | succ f ih =>
    intro i j h
    unfold find_next_fuel at h
    split at h
    · rcases hc : input[i]? with _ | c
      · rw [hc] at h; simp at h
      · rw [hc] at h
        simp only [] at h
        by_cases hd : is_valid_delimiter c = true
        · rw [if_pos hd] at h
          have := ih (i + 1) j h
          omega
        · rw [if_neg hd] at h
          simp at h
          omega
    · simp at h
      omega

/-- What the inner loop finds: when the rest of the input still holds a
significant byte, it returns the index of the first one, in bounds. -/
theorem find_next_fuel_spec (S : Nat) (input : List Nat) (hlen : input.length = S) :
    ∀ fuel i d ds, S - i < fuel → sig (input.drop i) = d :: ds →
      ∃ j, find_next_fuel fuel S input i = some (.ok j) ∧ i ≤ j ∧ j < S ∧
        input[j]? = some d ∧ is_valid_delimiter d = false ∧
        sig (input.drop (j + 1)) = ds := by
  intro fuel
  induction fuel with
  | zero => intro i d ds h _; omega
  | succ f ih =>
    intro i d ds hf hs
    have hi : i < S := by
      by_contra hge
      rw [List.drop_eq_nil_of_le (by omega)] at hs
      simp [sig] at hs
    have hilen : i < input.length := by omega
    have hdrop : input.drop i = input[i] :: input.drop (i + 1) :=
      List.drop_eq_getElem_cons hilen
    rw [hdrop, sig_cons] at hs
    by_cases hd : is_valid_delimiter input[i] = true
    · rw [if_pos hd] at hs
      obtain ⟨j, h1, h2, h3, h4, h5, h6⟩ := ih (i + 1) d ds (by omega) hs
      refine ⟨j, ?_, by omega, h3, h4, h5, h6⟩
      unfold find_next_fuel
      rw [if_pos hi, List.getElem?_eq_getElem hilen]
      simpa [hd] using h1
    · rw [if_neg hd] at hs
      have hd2 : input[i] = d ∧ sig (input.drop (i + 1)) = ds := by
        constructor
        · exact (List.cons_eq_cons.mp hs).1
        · exact (List.cons_eq_cons.mp hs).2
      refine ⟨i, ?_, Nat.le_refl i, hi, ?_, ?_, hd2.2⟩
      · unfold find_next_fuel
        rw [if_pos hi, List.getElem?_eq_getElem hilen]
        simp [hd]
      · rw [List.getElem?_eq_getElem hilen, hd2.1]
      · rw [← hd2.1]
        simpa using hd

/-- Master lemma for the outer loop of `convert`: from any state whose
write prefix is already fixed and whose remaining significant bytes are
exactly twice the remaining output cells, the loop computes the pairwise
decoding of those bytes appended to the written prefix, propagating the
first decoding failure. -/
theorem convert_loop_fuel_ok (R S : Nat) (input : List Nat) (hlen : input.length = S) :
    ∀ fuel char_index data data_index,
      data.length ≤ S →
      2 * data_index + (sig (input.drop char_index)).length = 2 * data.length →
      S - char_index < fuel →
      convert_loop_fuel fuel R S input data data_index char_index
        = some ((decodePairsE (sig (input.drop char_index))).map
            (fun l => data.take data_index ++ l)) := by
  intro fuel
  induction fuel with
  | zero => intro ci data di _ _ h; omega
  | succ f ih =>
    intro ci data di hdl hinv hf
    have hsig_le : (sig (input.drop ci)).length ≤ S - ci := by
      have h1 := sig_length_le (input.drop ci)
      have h2 : (input.drop ci).length = input.length - ci := List.length_drop ci input
      omega
    by_cases hguard : di < S ∧ ci + 1 < S
    · have hci : ci < input.length := by omega
      have hdrop : input.drop ci = input[ci] :: input.drop (ci + 1) :=
        List.drop_eq_getElem_cons hci
      by_cases hd : is_valid_delimiter input[ci] = true
      · -- delimiter branch: skip one byte
        have hsig : sig (input.drop ci) = sig (input.drop (ci + 1)) := by
          rw [hdrop, sig_cons, if_pos hd]
        rw [hsig] at hinv ⊢
        unfold convert_loop_fuel
        rw [if_pos hguard, List.getElem?_eq_getElem hci]
        simp only [hd, if_true]
        exact ih (ci + 1) data di hdl hinv (by omega)
      · -- significant byte: find its partner and write one output cell
        have hsig : sig (input.drop ci) = input[ci] :: sig (input.drop (ci + 1)) := by
          rw [hdrop, sig_cons, if_neg hd]
        rcases h2 : sig (input.drop (ci + 1)) with _ | ⟨c2, rest⟩
        · exfalso
          rw [hsig, h2] at hinv
          simp at hinv
          omega
        · obtain ⟨j, hfind, hjge, hjlt, hjget, hjnd, hjsig⟩ :=
            find_next_fuel_spec S input hlen (S + 1) (ci + 1) c2 rest (by omega) h2
          have hdib : di < data.length := by
            rw [hsig, h2] at hinv
            simp at hinv
            omega
          have hd2 : is_valid_delimiter input[ci] = false := by simpa using hd
          unfold convert_loop_fuel
          rw [if_pos hguard, List.getElem?_eq_getElem hci]
          simp only [hd2, Bool.false_eq_true, if_false, hfind, hjget]
          rw [hsig, h2]
          rcases hto1 : to_ordinal input[ci] with e1 | hi
          · simp only [decodePairsE, hto1, Except.map]
          · rcases hto2 : to_ordinal c2 with e2 | lo
            · simp only [decodePairsE, hto1, hto2, Except.map]
            · simp only [hdib, if_true]
              have hrec := ih (j + 1) (data.set di (hi * 16 + lo)) (di + 1)
                (by simpa using hdl)
                (by rw [hjsig]; rw [hsig, h2] at hinv; simp at hinv ⊢; omega)
                (by omega)
              rw [hjsig] at hrec
              rw [hrec]
              simp only [decodePairsE, hto1, hto2]
              rcases hdp : decodePairsE rest with e | out
              · simp [Except.map]
              · simp only [Except.map]
                rw [take_set data di (hi * 16 + lo) hdib]
                simp only [List.append_assoc, List.singleton_append]
                have : hi * 16 + lo = 16 * hi + lo := by omega
                rw [this]
    · -- the guard fails: all significant bytes are consumed
      have hsig0 : sig (input.drop ci) = [] := by
        rcases hnil : sig (input.drop ci) with _ | ⟨c0, s0⟩
        · rfl
        · exfalso
          rw [hnil] at hinv hsig_le
          simp at hinv hsig_le
          rcases hs0 : s0 with _ | _
          · rw [hs0] at hinv; simp at hinv; omega
          · rw [hs0] at hsig_le hinv
            simp at hsig_le hinv
            exact hguard ⟨by omega, by omega⟩
      rw [hsig0] at hinv ⊢
      unfold convert_loop_fuel
      rw [if_neg hguard]
      simp only [decodePairsE, Except.map]
      have : di = data.length := by simp at hinv; omega
      rw [this, List.take_length, List.append_nil]

/-- `convert` at the derived sizes is exactly the pairwise decoding of
the significant bytes. -/
theorem convert_eq (input : List Nat) (R : Nat)
    (hR : 2 * R = (sig input).length) :
    convert R input.length input = decodePairsE (sig input) := by
  unfold convert
  have hRle : R ≤ input.length := by
    have := sig_length_le input
    omega
  have h := convert_loop_fuel_ok R input.length input rfl (input.length + 1) 0
    (List.replicate R 0) 0 (by simpa using hRle)
    (by simp [hR]) (by omega)
  rw [List.drop_zero] at h
  rw [h]
  rcases decodePairsE (sig input) with e | out <;> simp [Except.map]

/-- Characterization of the whole pipeline: the even-length gate, then
pairwise decoding of the significant bytes. -/
theorem hex_eq (input : List Nat) :
    hex input = if (sig input).length % 2 = 0 then decodePairsE (sig input)
      else .error .OddDigitCount := by
  unfold hex
  rw [length_sub_count_skipped]
  by_cases h : (sig input).length % 2 = 0
  · rw [if_pos h, if_pos h]
    exact convert_eq input _ (by omega)
  · rw [if_neg h, if_neg h]

theorem two_step_induction {motive : List Nat → Prop} (h0 : motive [])
    (h1 : ∀ a, motive [a])
    (h2 : ∀ a b rest, motive rest → motive (a :: b :: rest)) :
    ∀ l, motive l
  | [] => h0
  | [a] => h1 a
  | a :: b :: rest => h2 a b rest (two_step_induction h0 h1 h2 rest)

/-- On an even-length list of valid digits, pairwise decoding succeeds
and yields the value-function pairing. -/
theorem decodePairsE_ok : ∀ l : List Nat, l.length % 2 = 0 →
    (∀ c ∈ l, isHexDigit c = true) → decodePairsE l = .ok (pairsOf l) := by
  refine two_step_induction ?_ ?_ ?_
  · intro _ _
    rfl
  · intro a h _
    simp at h
  · intro a b rest ih heven hvalid
    have ha := hvalid a (by simp)
    have hb := hvalid b (by simp)
    have hrest : ∀ c ∈ rest, isHexDigit c = true := fun c hc => hvalid c (by simp [hc])
    have he : rest.length % 2 = 0 := by simp at heven; omega
    rw [decodePairsE, to_ordinal_ok_of_hex a ha, to_ordinal_ok_of_hex b hb,
      ih he hrest, pairsOf]

/-- An even-length list containing a non-digit always fails with
`InvalidDigit`: the offending byte reaches `to_ordinal`. -/
theorem decodePairsE_invalid : ∀ l : List Nat, l.length % 2 = 0 →
    (∃ c ∈ l, isHexDigit c = false) → decodePairsE l = .error .InvalidDigit := by
  refine two_step_induction ?_ ?_ ?_
  · intro _ h
    simp at h
  · intro a h _
    simp at h
  · intro a b rest ih heven hbad
    by_cases ha : isHexDigit a = true
    · by_cases hb : isHexDigit b = true
      · have hrest : ∃ c ∈ rest, isHexDigit c = false := by
          rcases hbad with ⟨c, hc, hcbad⟩
          simp only [List.mem_cons] at hc
          rcases hc with rfl | rfl | hc
          · rw [ha] at hcbad; simp at hcbad
          · rw [hb] at hcbad; simp at hcbad
          · exact ⟨c, hc, hcbad⟩
        have he : rest.length % 2 = 0 := by simp at heven; omega
        rw [decodePairsE, to_ordinal_ok_of_hex a ha, to_ordinal_ok_of_hex b hb,
          ih he hrest]
      · rw [decodePairsE, to_ordinal_ok_of_hex a ha,
          to_ordinal_err_of_not_hex b (by simpa using hb)]
    · rw [decodePairsE, to_ordinal_err_of_not_hex a (by simpa using ha)]

theorem pairsOf_length : ∀ l : List Nat, l.length % 2 = 0 →
    (pairsOf l).length = l.length / 2 := by
  refine two_step_induction ?_ ?_ ?_
  · intro _
    rfl
  · intro a h
    simp at h
  · intro a b rest ih heven
    have he : rest.length % 2 = 0 := by simp at heven; omega
    rw [pairsOf]
    simp [ih he]
    omega

theorem pairsOf_get : ∀ l : List Nat, ∀ i, i < (pairsOf l).length →
    (pairsOf l)[i]? = some (16 * digitVal ((l[2 * i]?).getD 0)
      + digitVal ((l[2 * i + 1]?).getD 0)) := by
  refine two_step_induction ?_ ?_ ?_
  · intro i h
    simp [pairsOf] at h
  · intro a i h
    simp [pairsOf] at h
  · intro a b rest ih i h
    cases i with
    | zero => simp [pairsOf]
    | succ k =>
      have e1 : (a :: b :: rest)[2 * (k + 1)]? = rest[2 * k]? := by
        have h2 : 2 * (k + 1) = 2 * k + 1 + 1 := by omega
        rw [h2, List.getElem?_cons_succ, List.getElem?_cons_succ]
      have e2 : (a :: b :: rest)[2 * (k + 1) + 1]? = rest[2 * k + 1]? := by
        have h3 : 2 * (k + 1) + 1 = 2 * k + 1 + 1 + 1 := by omega
        rw [h3, List.getElem?_cons_succ, List.getElem?_cons_succ]
      rw [pairsOf, List.getElem?_cons_succ, e1, e2]
      rw [pairsOf] at h
      exact ih k (by simpa using h)

/-- Master lemma for the spec reference loop: the same characterization
as for the loop in the code, under the same remaining-work invariant. -/
theorem spec_loop_fuel_ok (R S : Nat) (input : List Nat) (hlen : input.length = S) :
    ∀ fuel read_cursor data write_cursor,
      data.length = R →
      2 * write_cursor + (sig (input.drop read_cursor)).length = 2 * R →
      S - read_cursor < fuel →
      spec_loop_fuel fuel R S input data write_cursor read_cursor
        = some ((decodePairsE (sig (input.drop read_cursor))).map
            (fun l => data.take write_cursor ++ l)) := by
  intro fuel
  induction fuel with
  | zero => intro r data w _ _ h; omega
  | succ f ih =>
    intro r data w hdl hinv hf
    by_cases hguard : w < R ∧ r < S
    · have hr : r < input.length := by omega
      have hdrop : input.drop r = input[r] :: input.drop (r + 1) :=
        List.drop_eq_getElem_cons hr
      by_cases hd : is_valid_delimiter input[r] = true
      · have hsig : sig (input.drop r) = sig (input.drop (r + 1)) := by
          rw [hdrop, sig_cons, if_pos hd]
        rw [hsig] at hinv ⊢
        unfold spec_loop_fuel
        rw [if_pos hguard, List.getElem?_eq_getElem hr]
        simp only [hd, if_true]
        exact ih (r + 1) data w hdl hinv (by omega)
      · have hsig : sig (input.drop r) = input[r] :: sig (input.drop (r + 1)) := by
          rw [hdrop, sig_cons, if_neg hd]
        rcases h2 : sig (input.drop (r + 1)) with _ | ⟨c2, rest⟩
        · exfalso
          rw [hsig, h2] at hinv
          simp at hinv
          omega
        · obtain ⟨j, hfind, hjge, hjlt, hjget, hjnd, hjsig⟩ :=
            find_next_fuel_spec S input hlen (S + 1) (r + 1) c2 rest (by omega) h2
          have hwb : w < data.length := by
            rw [hsig, h2] at hinv
            simp at hinv
            omega
          have hd2 : is_valid_delimiter input[r] = false := by simpa using hd
          unfold spec_loop_fuel
          rw [if_pos hguard, List.getElem?_eq_getElem hr]
          simp only [hd2, Bool.false_eq_true, if_false, hfind, hjget]
          rw [hsig, h2]
          rcases hto1 : to_ordinal input[r] with e1 | hi
          · simp only [decodePairsE, hto1, Except.map]
          · rcases hto2 : to_ordinal c2 with e2 | lo
            · simp only [decodePairsE, hto1, hto2, Except.map]
            · have hrec := ih (j + 1) (data.set w (16 * hi + lo)) (w + 1)
                (by simpa using hdl)
                (by rw [hjsig]; rw [hsig, h2] at hinv; simp at hinv ⊢; omega)
                (by omega)
              rw [hjsig] at hrec
              show spec_loop_fuel f R S input (data.set w (16 * hi + lo)) (w + 1) (j + 1)
                = some ((decodePairsE (input[r] :: c2 :: rest)).map
                    (fun l => data.take w ++ l))
              rw [hrec]
              simp only [decodePairsE, hto1, hto2]
              rcases hdp : decodePairsE rest with e | out
              · simp [Except.map]
              · simp only [Except.map]
                rw [take_set data w (16 * hi + lo) hwb]
                simp only [List.append_assoc, List.singleton_append]
    · have hsig_le : (sig (input.drop r)).length ≤ S - r := by
        have h1 := sig_length_le (input.drop r)
        have h2 : (input.drop r).length = input.length - r := List.length_drop r input
        omega
      have hsig0 : sig (input.drop r) = [] := by
        rcases hnil : sig (input.drop r) with _ | ⟨c0, s0⟩
        · rfl
        · exfalso
          rw [hnil] at hinv hsig_le
          simp at hinv hsig_le
          rcases hs0 : s0 with _ | _
          · rw [hs0] at hinv; simp at hinv; omega
          · rw [hs0] at hsig_le hinv
            simp at hsig_le hinv
            exact hguard ⟨by omega, by omega⟩
      rw [hsig0] at hinv ⊢
      unfold spec_loop_fuel
      rw [if_neg hguard]
      simp only [decodePairsE, Except.map]
      have : w = data.length := by simp at hinv; omega
      rw [this, List.take_length, List.append_nil]

/-- The spec reference decode at the derived sizes also equals the
pairwise decoding of the significant bytes. -/
theorem spec_decode_eq (input : List Nat) (R : Nat)
    (hR : 2 * R = (sig input).length) :
    spec_decode R input.length input = decodePairsE (sig input) := by
  unfold spec_decode
  have h := spec_loop_fuel_ok R input.length input rfl (input.length + 1) 0
    (List.replicate R 0) 0 (by simp)
    (by simp [hR]) (by omega)
  rw [List.drop_zero] at h
  rw [h]
  rcases decodePairsE (sig input) with e | out <;> simp [Except.map]

theorem upcaseRel_delim {a b : Nat} (h : upcaseRel a b) :
    is_valid_delimiter b = is_valid_delimiter a := by
  rcases h with rfl | ⟨h1, h2, rfl⟩
  · rfl
  · have ha : is_valid_delimiter a = false := by
      rcases hd : is_valid_delimiter a
      · rfl
      · have := (is_valid_delimiter_iff a).mp hd
        omega
    have hb : is_valid_delimiter (a - 32) = false := by
      rcases hd : is_valid_delimiter (a - 32)
      · rfl
      · have := (is_valid_delimiter_iff (a - 32)).mp hd
        omega
    rw [ha, hb]

theorem upcaseRel_to_ordinal {a b : Nat} (h : upcaseRel a b) :
    to_ordinal b = to_ordinal a := by
  rcases h with rfl | ⟨h1, h2, rfl⟩
  · rfl
  · have hb : to_ordinal (a - 32) = .ok (a - 32 - 65 + 10) := by
      unfold to_ordinal
      rw [if_neg (by omega), if_pos (by omega)]
    have ha : to_ordinal a = .ok (a - 97 + 10) := by
      unfold to_ordinal
      rw [if_neg (by omega), if_neg (by omega), if_pos (by omega)]
    rw [hb, ha]
    simp only [Except.ok.injEq]
    omega

theorem sig_forall2 : ∀ l l' : List Nat, List.Forall₂ upcaseRel l l' →
    List.Forall₂ upcaseRel (sig l) (sig l') := by
  intro l l' h
  induction h with
  | nil => simp [sig]
  | cons hab htail ih =>
    rw [sig_cons, sig_cons, upcaseRel_delim hab]
    split_ifs with hd
    · exact ih
    · exact List.Forall₂.cons hab ih

theorem decodePairsE_rel : ∀ l : List Nat, ∀ l' : List Nat,
    List.Forall₂ upcaseRel l l' → decodePairsE l' = decodePairsE l := by
  refine two_step_induction ?_ ?_ ?_
  · intro l' h
    rw [List.forall₂_nil_left_iff.mp h]
  · intro a l' h
    rcases List.forall₂_cons_left_iff.mp h with ⟨b, l'', hrel, htail, rfl⟩
    rw [List.forall₂_nil_left_iff.mp htail]
    rfl
  · intro a c rest ih l' h
    rcases List.forall₂_cons_left_iff.mp h with ⟨b, l2, hab, htail, rfl⟩
    rcases List.forall₂_cons_left_iff.mp htail with ⟨d, rest', hcd, htail2, rfl⟩
    rw [decodePairsE, decodePairsE, upcaseRel_to_ordinal hab,
      upcaseRel_to_ordinal hcd, ih rest' htail2]

/-- The outer loop halts within its bound: the read cursor strictly
increases each iteration, so any fuel exceeding the remaining positions
returns a value on every input and state. -/
theorem convert_loop_fuel_isSome (R S : Nat) (input : List Nat) :
    ∀ fuel data data_index char_index, S - char_index < fuel →
      (convert_loop_fuel fuel R S input data data_index char_index).isSome = true := by
  intro fuel
  induction fuel with
  | zero => intro _ _ ci h; omega
  | succ f ih =>
    intro data di ci h
    unfold convert_loop_fuel
    split
    case isTrue hguard =>
      rcases hc : input[ci]? with _ | c
      · simp
      · by_cases hd : is_valid_delimiter c = true
        · simpa [hd] using ih data di (ci + 1) (by omega)
        · rcases hfind : find_next_fuel (S + 1) S input (ci + 1) with _ | er
          · simp [hd, hfind]
          · rcases er with e | j
            · simp [hd, hfind]
            · rcases hj : input[j]? with _ | c2
              · simp [hd, hfind, hj]
              · rcases h1 : to_ordinal c with e | hi
                · simp [hd, hfind, hj, h1]
                · rcases h2 : to_ordinal c2 with e | lo
                  · simp [hd, hfind, hj, h1, h2]
                  · by_cases hb : di < data.length
                    · have hjge := find_next_fuel_le S input (S + 1) (ci + 1) j hfind
                      simpa [hd, hfind, hj, h1, h2, hb] using
                        ih (data.set di (hi * 16 + lo)) (di + 1) (j + 1) (by omega)
                    · simp [hd, hfind, hj, h1, h2, hb]
    case isFalse _ => simp

/-- C1: for every input whose count of significant (non-delimiter) bytes
is even and whose significant bytes are all valid hex digits, `convert`
with output length derived as (input length - count_skipped) / 2 returns
a byte array of exactly half the significant count, whose byte at
position i is 16 * value(digit 2i) + value(digit (2i+1)) over the
significant digits in scan order. -/
theorem claim_C1 (input : List Nat)
    (heven : (sig input).length % 2 = 0)
    (hvalid : ∀ c ∈ sig input, isHexDigit c = true) :
    ∃ out, convert ((input.length - count_skipped input) / 2) input.length input
        = .ok out ∧
      out.length = (sig input).length / 2 ∧
      ∀ i, i < out.length →
        out[i]? = some (16 * digitVal (((sig input)[2 * i]?).getD 0)
          + digitVal (((sig input)[2 * i + 1]?).getD 0)) := by
  refine ⟨pairsOf (sig input), ?_, pairsOf_length _ heven, pairsOf_get (sig input)⟩
  rw [length_sub_count_skipped, convert_eq input _ (by omega),
    decodePairsE_ok _ heven hvalid]

/-- C1 witness: the input 0A_0b decodes to the two bytes 10, 11. -/
theorem claim_C1_witness :
    ∃ out, convert ((([48, 65, 95, 48, 98] : List Nat).length
          - count_skipped [48, 65, 95, 48, 98]) / 2) ([48, 65, 95, 48, 98] : List Nat).length
        [48, 65, 95, 48, 98] = .ok out ∧
      out.length = (sig [48, 65, 95, 48, 98]).length / 2 ∧
      ∀ i, i < out.length →
        out[i]? = some (16 * digitVal (((sig [48, 65, 95, 48, 98])[2 * i]?).getD 0)
          + digitVal (((sig [48, 65, 95, 48, 98])[2 * i + 1]?).getD 0)) :=
  claim_C1 [48, 65, 95, 48, 98] (by decide) (by decide)

/-- C2: on every input whose significant-digit count is even, the loop
of the code (guard data_index < STRING_SIZE and char_index + 1 <
STRING_SIZE) computes the same result as the reference algorithm of spec
section 4.4 (guard: output not full and input not exhausted), at the
derived output length. -/
theorem claim_C2 (input : List Nat) (heven : (sig input).length % 2 = 0) :
    convert ((input.length - count_skipped input) / 2) input.length input
      = spec_decode ((input.length - count_skipped input) / 2) input.length input := by
  rw [length_sub_count_skipped, convert_eq input _ (by omega),
    spec_decode_eq input _ (by omega)]

/-- C2 witness: the code loop and the spec loop agree on 0A 0B followed
by a trailing delimiter. -/
theorem claim_C2_witness :
    convert ((([48, 65, 32, 48, 66, 32] : List Nat).length
        - count_skipped [48, 65, 32, 48, 66, 32]) / 2)
      ([48, 65, 32, 48, 66, 32] : List Nat).length [48, 65, 32, 48, 66, 32]
      = spec_decode ((([48, 65, 32, 48, 66, 32] : List Nat).length
        - count_skipped [48, 65, 32, 48, 66, 32]) / 2)
      ([48, 65, 32, 48, 66, 32] : List Nat).length [48, 65, 32, 48, 66, 32] :=
  claim_C2 [48, 65, 32, 48, 66, 32] (by decide)

/-- C3: the delimiter classifier is a pure total function which, on
every byte value, returns true exactly on the five fixed bytes: space
(32), double-quote (34), underscore (95), vertical bar (124),
hyphen (45). -/
theorem claim_C3 (c : Nat) (_hc : c < 256) :
    is_valid_delimiter c = true ↔
      c = 32 ∨ c = 34 ∨ c = 95 ∨ c = 124 ∨ c = 45 :=
  is_valid_delimiter_iff c

/-- C3 witness: underscore is a delimiter. -/
theorem claim_C3_witness :
    is_valid_delimiter 95 = true ↔
      (95 : Nat) = 32 ∨ (95 : Nat) = 34 ∨ (95 : Nat) = 95 ∨
      (95 : Nat) = 124 ∨ (95 : Nat) = 45 :=
  claim_C3 95 (by decide)

/-- C4: `to_ordinal` maps the digits 0-9 to 0-9, A-F to 10-15 and
a-f to 10-15; on every hex digit it returns a value in 0..15. -/
theorem claim_C4 (b : Nat) :
    (48 ≤ b → b ≤ 57 → to_ordinal b = .ok (b - 48)) ∧
    (65 ≤ b → b ≤ 70 → to_ordinal b = .ok (b - 65 + 10)) ∧
    (97 ≤ b → b ≤ 102 → to_ordinal b = .ok (b - 97 + 10)) ∧
    (isHexDigit b = true → ∃ v, to_ordinal b = .ok v ∧ v ≤ 15) := by
  refine ⟨?_, ?_, ?_, ?_⟩
  · intro h1 h2
    unfold to_ordinal
    rw [if_pos (by omega)]
  · intro h1 h2
    unfold to_ordinal
    rw [if_neg (by omega), if_pos (by omega)]
  · intro h1 h2
    unfold to_ordinal
    rw [if_neg (by omega), if_neg (by omega), if_pos (by omega)]
  · intro h
    exact ⟨digitVal b, to_ordinal_ok_of_hex b h, digitVal_le b⟩

/-- C4 witness: the three range cases at 57, 70 and 102, all at most 15. -/
theorem claim_C4_witness :
    to_ordinal 57 = .ok 9 ∧ to_ordinal 70 = .ok 15 ∧
    to_ordinal 102 = .ok 15 ∧ ∃ v, to_ordinal 102 = .ok v ∧ v ≤ 15 :=
  ⟨(claim_C4 57).1 (by decide) (by decide),
   (claim_C4 70).2.1 (by decide) (by decide),
   (claim_C4 102).2.2.1 (by decide) (by decide),
   (claim_C4 102).2.2.2 (by decide)⟩

/-- C5: every input with an odd significant-byte count fails with
OddDigitCount and produces no output. -/
theorem claim_C5 (input : List Nat) (hodd : (sig input).length % 2 = 1) :
    hex input = .error .OddDigitCount := by
  rw [hex_eq, if_neg (by omega)]

/-- C5 witness: the three-digit input 012 is rejected. -/
theorem claim_C5_witness : hex [48, 49, 50] = .error .OddDigitCount :=
  claim_C5 [48, 49, 50] (by decide)

/-- C6: every input with an even significant count containing a byte
that is neither a delimiter nor a hex digit fails with InvalidDigit:
no truncated, zero-filled or skipping output is produced. -/
theorem claim_C6 (input : List Nat) (heven : (sig input).length % 2 = 0)
    (hbad : ∃ c ∈ input, is_valid_delimiter c = false ∧ isHexDigit c = false) :
    hex input = .error .InvalidDigit := by
  rw [hex_eq, if_pos heven]
  apply decodePairsE_invalid _ heven
  rcases hbad with ⟨c, hc, hnd, hnh⟩
  exact ⟨c, by simp [sig, List.mem_filter, hc, hnd], hnh⟩

/-- C6 witness: the input 0g fails with InvalidDigit. -/
theorem claim_C6_witness : hex [48, 103] = .error .InvalidDigit :=
  claim_C6 [48, 103] (by decide) ⟨103, by decide, by decide, by decide⟩

/-- C7: on every input where decoding succeeds, removing all delimiter
bytes first yields the same output byte array. -/
theorem claim_C7 (input : List Nat) (out : List Nat) (h : hex input = .ok out) :
    hex (sig input) = .ok out := by
  rw [hex_eq] at h
  by_cases heven : (sig input).length % 2 = 0
  · rw [if_pos heven] at h
    have hs : sig (sig input) = sig input := by
      simp [sig, List.filter_filter]
    rw [hex_eq, hs, if_pos heven, h]
  · rw [if_neg heven] at h
    simp at h

/-- C7 witness: stripping the space from 0A 0B leaves the output [10, 11]. -/
theorem claim_C7_witness : hex (sig [48, 65, 32, 48, 66]) = .ok [10, 11] :=
  claim_C7 [48, 65, 32, 48, 66] [10, 11] rfl

/-- C8: decoding is case-insensitive: replacing any lowercase hex
letters by their uppercase forms leaves the result unchanged, and in
particular a1b2 and A1B2 both decode to [0xA1, 0xB2]. -/
theorem claim_C8 :
    (∀ input upper : List Nat, List.Forall₂ upcaseRel input upper →
      hex upper = hex input) ∧
    hex [97, 49, 98, 50] = .ok [0xA1, 0xB2] ∧
    hex [65, 49, 66, 50] = .ok [0xA1, 0xB2] := by
  refine ⟨?_, rfl, rfl⟩
  intro input upper h
  rw [hex_eq, hex_eq]
  have hlen : (sig upper).length = (sig input).length :=
    (sig_forall2 _ _ h).length_eq.symm
  rw [hlen]
  by_cases he : (sig input).length % 2 = 0
  · rw [if_pos he, if_pos he, decodePairsE_rel _ _ (sig_forall2 _ _ h)]
  · rw [if_neg he, if_neg he]

/-- C8 witness: uppercasing a1b2 to A1B2 leaves the decode unchanged. -/
theorem claim_C8_witness : hex [65, 49, 66, 50] = hex [97, 49, 98, 50] :=
  claim_C8.1 [97, 49, 98, 50] [65, 49, 66, 50]
    (List.Forall₂.cons (by unfold upcaseRel; omega)
      (List.Forall₂.cons (by unfold upcaseRel; omega)
        (List.Forall₂.cons (by unfold upcaseRel; omega)
          (List.Forall₂.cons (by unfold upcaseRel; omega) List.Forall₂.nil))))

/-- C9: under the precondition of even significant count and all-valid
digits, the out-of-bounds failure branch of the total embedding of the
indexing in `convert` is unreachable. -/
theorem claim_C9 (input : List Nat)
    (heven : (sig input).length % 2 = 0)
    (hvalid : ∀ c ∈ sig input, isHexDigit c = true) :
    convert ((input.length - count_skipped input) / 2) input.length input
      ≠ .error .OutOfBounds := by
  rw [length_sub_count_skipped, convert_eq input _ (by omega),
    decodePairsE_ok _ heven hvalid]
  simp

/-- C9 witness: on 0A 0B no out-of-bounds branch is reached. -/
theorem claim_C9_witness :
    convert ((([48, 65, 32, 48, 66] : List Nat).length
        - count_skipped [48, 65, 32, 48, 66]) / 2)
      ([48, 65, 32, 48, 66] : List Nat).length [48, 65, 32, 48, 66]
      ≠ .error .OutOfBounds :=
  claim_C9 [48, 65, 32, 48, 66] (by decide) (by decide)

/-- C10: all the loops terminate with no precondition: the outer loop of
`convert` and the inner delimiter-skipping loop return within a fuel
bound given by the remaining input positions, and the single pass of
`count_skipped` visits each byte once. -/
theorem claim_C10 :
    (∀ fuel R S input data data_index char_index, S - char_index < fuel →
      (convert_loop_fuel fuel R S input data data_index char_index).isSome = true) ∧
    (∀ fuel S input next_index, S - next_index < fuel →
      (find_next_fuel fuel S input next_index).isSome = true) ∧
    (∀ data : List Nat, count_skipped data ≤ data.length) :=
  ⟨fun fuel R S input data di ci h => convert_loop_fuel_isSome R S input fuel data di ci h,
   fun fuel S input i h => find_next_fuel_isSome S input fuel i h,
   count_skipped_le⟩

/-- C10 witness: both loops return on a concrete input and state, and
the skip count of that input is bounded by its length. -/
theorem claim_C10_witness :
    (convert_loop_fuel 6 2 5 [48, 65, 32, 48, 66] [0, 0] 0 0).isSome = true ∧
    (find_next_fuel 6 5 [48, 65, 32, 48, 66] 1).isSome = true ∧
    count_skipped [48, 65, 32, 48, 66] ≤ ([48, 65, 32, 48, 66] : List Nat).length :=
  ⟨claim_C10.1 6 2 5 [48, 65, 32, 48, 66] [0, 0] 0 0 (by decide),
   claim_C10.2.1 6 5 [48, 65, 32, 48, 66] 1 (by decide),
   claim_C10.2.2 [48, 65, 32, 48, 66]⟩

end Hexlit
